import Mathlib

/-!
Verification of the player-name reconciliation script (src/map-players.py).

Strings are modelled as lists of Unicode code points (`Nat`), matching Python
`str` semantics, where indexing, slicing and `in` operate on code points.
The character-class primitives (`str.lower`, NFKD decomposition, combining
marks, the regex classes `\w` and `\s`) are modelled exactly for every code
point below 0x100 (the Latin-1 range, which covers the roster data this
script processes) together with the code points their decompositions emit;
code points outside that fragment are treated as identity / non-word.
Python dicts are modelled as association lists with insertion-order
iteration and in-place value update, which is exactly the behaviour of
`dict` in Python 3.7+.
-/

namespace MapPlayers

/-- Python strings as lists of Unicode code points. -/
abbrev Str := List Nat

/-- Code points of a Lean string literal; used to write concrete inputs. -/
def ofString (s : String) : Str := s.toList.map Char.toNat

/-- Model of `str.lower` (line 11): ASCII A-Z and the Latin-1 uppercase
letters 0xC0-0xDE (except the multiplication sign 0xD7) map to the code
point 32 higher; everything else in the modelled fragment is unchanged. -/
def pyLower (c : Nat) : Nat :=
  if 65 ≤ c ∧ c ≤ 90 then c + 32
  else if 192 ≤ c ∧ c ≤ 222 ∧ c ≠ 215 then c + 32
  else c

/-- Model of `.replace('-', ' ')` (line 11), applied per character. -/
def hyphenToSpace (c : Nat) : Nat := if c = 45 then 32 else c

/-- NFKD decomposition table for the modelled fragment, generated from
`unicodedata`: every code point below 0x100 that decomposes, with its full
compatibility decomposition. -/
def nfkdTable : List (Nat × List Nat) :=
  [(160, [32]), (168, [32, 776]), (170, [97]), (175, [32, 772]),
   (178, [50]), (179, [51]), (180, [32, 769]), (181, [956]),
   (184, [32, 807]), (185, [49]), (186, [111]),
   (188, [49, 8260, 52]), (189, [49, 8260, 50]), (190, [51, 8260, 52]),
   (192, [65, 768]), (193, [65, 769]), (194, [65, 770]), (195, [65, 771]),
   (196, [65, 776]), (197, [65, 778]), (199, [67, 807]),
   (200, [69, 768]), (201, [69, 769]), (202, [69, 770]), (203, [69, 776]),
   (204, [73, 768]), (205, [73, 769]), (206, [73, 770]), (207, [73, 776]),
   (209, [78, 771]),
   (210, [79, 768]), (211, [79, 769]), (212, [79, 770]), (213, [79, 771]),
   (214, [79, 776]),
   (217, [85, 768]), (218, [85, 769]), (219, [85, 770]), (220, [85, 776]),
   (221, [89, 769]),
   (224, [97, 768]), (225, [97, 769]), (226, [97, 770]), (227, [97, 771]),
   (228, [97, 776]), (229, [97, 778]), (231, [99, 807]),
   (232, [101, 768]), (233, [101, 769]), (234, [101, 770]), (235, [101, 776]),
   (236, [105, 768]), (237, [105, 769]), (238, [105, 770]), (239, [105, 776]),
   (241, [110, 771]),
   (242, [111, 768]), (243, [111, 769]), (244, [111, 770]), (245, [111, 771]),
   (246, [111, 776]),
   (249, [117, 768]), (250, [117, 769]), (251, [117, 770]), (252, [117, 776]),
   (253, [121, 769]), (255, [121, 776])]

/-- Model of `unicodedata.normalize('NFKD', ...)` (line 12) as per-character
decomposition through the table; code points without an entry (including
everything outside the modelled fragment) do not decompose. -/
def nfkd (c : Nat) : List Nat := (nfkdTable.lookup c).getD [c]

/-- Model of `unicodedata.combining(c) != 0` (line 13): true on the
Combining Diacritical Marks block 0x300-0x36F, which contains every mark
the modelled decompositions emit. -/
def combining (c : Nat) : Bool := decide (768 ≤ c ∧ c ≤ 879)

/-- Model of the regex class `\w` (line 14): ASCII alphanumerics and
underscore, the Latin-1 letters (0xAA, 0xB5, 0xBA, 0xC0-0xFF except the
signs 0xD7 and 0xF7), and Greek small mu 0x3BC (emitted by the
decomposition of 0xB5). -/
def isWordChar (c : Nat) : Bool :=
  decide ((48 ≤ c ∧ c ≤ 57) ∨ (65 ≤ c ∧ c ≤ 90) ∨ (97 ≤ c ∧ c ≤ 122) ∨ c = 95 ∨
    c = 170 ∨ c = 181 ∨ c = 186 ∨
    (192 ≤ c ∧ c ≤ 255 ∧ c ≠ 215 ∧ c ≠ 247) ∨ c = 956)

/-- Model of the regex class `\s` and `str.strip` whitespace (line 15):
tab through carriage return, the separators 0x1C-0x1F, space, next line
0x85 and no-break space 0xA0. -/
def isSpaceChar (c : Nat) : Bool :=
  decide (c = 32 ∨ (9 ≤ c ∧ c ≤ 13) ∨ (28 ≤ c ∧ c ≤ 31) ∨ c = 133 ∨ c = 160)

/-- Concatenate a list of lists (used for the per-character decompositions). -/
def catLists : List (List Nat) → List Nat
  | [] => []
  | l :: ls => l ++ catLists ls

/-- Replace each whitespace code point by a plain space; together with
`squeeze` this models `re.sub(r'\s+', ' ', ·)` (line 15), which rewrites
every maximal whitespace run to a single space. -/
def wsChar (c : Nat) : Nat := if isSpaceChar c then 32 else c

/-- Collapse adjacent spaces: the second half of `re.sub(r'\s+', ' ', ·)`,
run after `wsChar` has made every whitespace code point equal to 32. -/
def squeeze : Str → Str
  | [] => []
  | [c] => [c]
  | a :: b :: rest =>
    if a = 32 ∧ b = 32 then squeeze (b :: rest) else a :: squeeze (b :: rest)

/-- Left part of `str.strip()` (line 15). -/
def lstrip (l : Str) : Str := l.dropWhile isSpaceChar

/-- Right part of `str.strip()` (line 15). -/
def rstrip (l : Str) : Str := ((l.reverse).dropWhile isSpaceChar).reverse

/-- Stages of `normalize` (lines 11-14) before whitespace handling:
lowercase, hyphen to space, NFKD decomposition, drop combining marks,
keep only word and whitespace characters. -/
def preWs (s : Str) : Str :=
  ((catLists (((s.map pyLower).map hyphenToSpace).map nfkd)).filter
      (fun c => !(combining c))).filter
    (fun c => isWordChar c || isSpaceChar c)

/-- Whitespace characters mapped to plain spaces, before collapsing. -/
def spaced (s : Str) : Str := (preWs s).map wsChar

/-- Model of `normalize` (lines 7-16): empty input short-circuits (the
`if not name` guard); otherwise lowercase, replace hyphens, NFKD-decompose,
drop combining marks, drop everything that is neither word nor whitespace,
collapse whitespace runs to single spaces, and strip. -/
def normalize (s : Str) : Str :=
  if s = [] then [] else rstrip (lstrip (squeeze (spaced s)))

/-- Length of the common run of equal code points at the heads. -/
def commonRun : Str → Str → Nat
  | a :: as, b :: bs => if a = b then commonRun as bs + 1 else 0
  | _, _ => 0

/-- All candidate match starts `(i, j, runLength)` in iteration order
(ascending `i`, then ascending `j`). -/
def allStarts (a b : Str) : List (Nat × Nat × Nat) :=
  (List.range a.length).foldr
    (fun i acc =>
      ((List.range b.length).map (fun j => (i, j, commonRun (a.drop i) (b.drop j)))) ++ acc)
    []

/-- Scan of the candidate starts keeping the best block under strict `>`,
so the earliest candidate attaining the maximum run length wins. -/
def flmGo : List (Nat × Nat × Nat) → Nat → Nat → Nat → Nat × Nat × Nat
  | [], bi, bj, bk => (bi, bj, bk)
  | (i, j, k) :: rest, bi, bj, bk =>
    if k > bk then flmGo rest i j k else flmGo rest bi bj bk

/-- Model of `SequenceMatcher.find_longest_match` over full ranges (no junk,
as the inputs are far below the autojunk threshold of 200): the longest
common contiguous block, ties resolved to the smallest `i`, then the
smallest `j`, exactly as difflib's strict-greater bookkeeping does. -/
def findLongestMatch (a b : Str) : Nat × Nat × Nat := flmGo (allStarts a b) 0 0 0

/-- Recursion of `get_matching_blocks`: total matched size is the longest
block plus the matched sizes of the pieces to its left and right. The fuel
`a.length + b.length` is always sufficient, as each recursive call strictly
decreases the total length when the block is non-empty. -/
def matchTotalGo : Nat → Str → Str → Nat
  | 0, _, _ => 0
  | fuel + 1, a, b =>
    let m := findLongestMatch a b
    if m.2.2 = 0 then 0
    else
      m.2.2 + matchTotalGo fuel (a.take m.1) (b.take m.2.1) +
        matchTotalGo fuel (a.drop (m.1 + m.2.2)) (b.drop (m.2.1 + m.2.2))

/-- Total size of all matching blocks, as difflib's `ratio` counts them. -/
def matchTotal (a b : Str) : Nat := matchTotalGo (a.length + b.length) a b

/-- Model of `similarity` (lines 19-20): `SequenceMatcher(None, a, b).ratio()`
= 2M / (len a + len b) when both strings are non-empty, else 0.0. Computed
in exact rational arithmetic. -/
def similarity (a b : Str) : ℚ :=
  if a ≠ [] ∧ b ≠ [] then
    2 * (matchTotal a b : ℚ) / ((a.length + b.length : Nat) : ℚ)
  else 0

/-- Loop of `best_fuzzy_match` (lines 25-29): scan candidates in order,
keeping the first candidate attaining the running maximum (strict `>`). -/
def bestFuzzyAux (ln : Str) : List (Str × Nat) → Option Nat → ℚ → Option Nat × ℚ
  | [], bc, bs => (bc, bs)
  | (k, c) :: rest, bc, bs =>
    if similarity ln k > bs then bestFuzzyAux ln rest (some c) (similarity ln k)
    else bestFuzzyAux ln rest bc bs

/-- Model of `best_fuzzy_match` (lines 23-32): best candidate if its score
reaches `min_score`, else no code; the best score is returned either way. -/
def best_fuzzy_match (ln : Str) (cands : List (Str × Nat)) (min_score : ℚ) :
    Option Nat × ℚ :=
  let r := bestFuzzyAux ln cands none 0
  if min_score ≤ r.2 then (r.1, r.2) else (none, r.2)

/-- Python `dict` lookup on an insertion-ordered association list. -/
def dictFind : List (Str × Nat) → Str → Option Nat
  | [], _ => none
  | (k, v) :: rest, key => if k = key then some v else dictFind rest key

/-- Python `dict` assignment `m[k] = v`: update in place if the key exists
(keeping its position), else append. -/
def dinsert : List (Str × Nat) → Str → Nat → List (Str × Nat)
  | [], k, v => [(k, v)]
  | (k', v') :: rest, k, v =>
    if k' = k then (k', v) :: rest else (k', v') :: dinsert rest k v

/-- Model of per-prefix equality for Python's substring test. -/
def isPrefixList : Str → Str → Bool
  | [], _ => true
  | _ :: _, [] => false
  | a :: as, b :: bs => a == b && isPrefixList as bs

/-- Model of Python's `a in b` on strings: contiguous substring. -/
def isSubstr (a : Str) : Str → Bool
  | [] => a.isEmpty
  | b :: bs => isPrefixList a (b :: bs) || isSubstr a bs

/-- Condition of the containment tier (line 72):
`fpl_name and (fpl_name in local_name or local_name in fpl_name)`. -/
def containPred (ln k : Str) : Bool :=
  !k.isEmpty && (isSubstr k ln || isSubstr ln k)

/-- Containment loop (lines 70-74): first key in insertion order that is
non-empty and contained in, or containing, the local name. -/
def containment (ln : Str) : List (Str × Nat) → Option Nat
  | [] => none
  | (k, c) :: rest => if containPred ln k then some c else containment ln rest

/-- The three-tier cascade of the reconcile loop body (lines 63-85): exact
key lookup, then containment, then fuzzy fallback. The boolean records
whether the match came from the fuzzy tier. -/
def resolve (ln : Str) (idx : List (Str × Nat)) (minScore : ℚ) : Option Nat × Bool :=
  match dictFind idx ln with
  | some code => (some code, false)
  | none =>
    match containment ln idx with
    | some code => (some code, false)
    | none =>
      match (best_fuzzy_match ln idx minScore).1 with
      | some code => (some code, true)
      | none => (none, false)

/-- A local player record: the fields the script reads and writes. -/
structure Player where
  id : Str
  name : Str
  photoCode : Option Nat
deriving DecidableEq

/-- One iteration of the reconcile loop (lines 59-85) on a single player:
on a match, set `photoCode`; report (player, matched?, fuzzy?). The loop
calls `best_fuzzy_match` with `min_score=0.86`. -/
def reconcileStep (idx : List (Str × Nat)) (p : Player) : Player × Bool × Bool :=
  match resolve (normalize p.name) idx (0.86 : ℚ) with
  | (some code, fz) => (⟨p.id, p.name, some code⟩, true, fz)
  | (none, _) => (p, false, false)

/-- The reconcile loop (lines 57-85): enriched players plus the `matches`
and `fuzzy_matches` counters. -/
def reconcile (players : List Player) (idx : List (Str × Nat)) :
    List Player × Nat × Nat :=
  match players with
  | [] => ([], 0, 0)
  | p :: rest =>
    let s := reconcileStep idx p
    let r := reconcile rest idx
    (s.1 :: r.1, (if s.2.1 then 1 else 0) + r.2.1, (if s.2.2 then 1 else 0) + r.2.2)

/-- An external (FPL) record: the fields the index builder reads. -/
structure FplRecord where
  code : Nat
  first_name : Str
  second_name : Str
  web_name : Str
deriving DecidableEq

/-- The lookup-map builder (lines 47-55): for each record insert the
normalized full name, web name and second name, all mapping to its code. -/
def buildIndex (elements : List FplRecord) : List (Str × Nat) :=
  elements.foldl
    (fun m p =>
      dinsert
        (dinsert (dinsert m (normalize (p.first_name ++ 32 :: p.second_name)) p.code)
          (normalize p.web_name) p.code)
        (normalize p.second_name) p.code)
    []

/-- A UI (derived) player record: the fields the sync step reads and writes. -/
structure UiPlayer where
  id : Option Str
  basePlayerId : Option Str
  photoCode : Option Nat
deriving DecidableEq

/-- Python truthiness of an optional string: empty and absent are falsy. -/
def truthy : Option Str → Option Str
  | none => none
  | some s => if s = [] then none else some s

/-- Join key of a UI record (line 101):
`str(p.get('basePlayerId') or p.get('id') or '').split('-')[0]`. -/
def baseId (p : UiPlayer) : Str :=
  (match truthy p.basePlayerId with
    | some s => s
    | none =>
      match truthy p.id with
      | some s => s
      | none => []).takeWhile (fun c => !(c == 45))

/-- The core map (line 98): local id to photoCode for every player whose
photoCode is truthy (present and non-zero). -/
def coreMap (locals : List Player) : List (Str × Nat) :=
  locals.foldl
    (fun m p =>
      match p.photoCode with
      | some c => if c ≠ 0 then dinsert m p.id c else m
      | none => m)
    []

/-- One iteration of the UI sync loop (lines 100-104). -/
def propagateStep (cm : List (Str × Nat)) (p : UiPlayer) : UiPlayer × Nat :=
  match dictFind cm (baseId p) with
  | some code => (⟨p.id, p.basePlayerId, some code⟩, 1)
  | none => (p, 0)

/-- Inner loop of the propagation step over the UI players. -/
def propagateGo (cm : List (Str × Nat)) : List UiPlayer → List UiPlayer × Nat
  | [] => ([], 0)
  | p :: rest =>
    let s := propagateStep cm p
    let r := propagateGo cm rest
    (s.1 :: r.1, s.2 + r.2)

/-- The propagation step (lines 98-104): join UI records to the enriched
local players by base identifier, copying the resolved photoCode. -/
def propagate (ui : List UiPlayer) (locals : List Player) : List UiPlayer × Nat :=
  propagateGo (coreMap locals) ui

/-- Spec-side predicate for claim C5 as stated: lowercase ASCII
alphanumeric or space. -/
def specLowerAlnumSpace (c : Nat) : Bool :=
  decide ((97 ≤ c ∧ c ≤ 122) ∨ (48 ≤ c ∧ c ≤ 57) ∨ c = 32)

/-- Output alphabet of `normalize` besides the space: lowercase ASCII
alphanumerics, underscore, and the case-invariant Latin-1 lowercase
letters 0xDF, 0xE6, 0xF0, 0xF8, 0xFE together with Greek small mu. -/
def goodOut (c : Nat) : Bool :=
  decide ((97 ≤ c ∧ c ≤ 122) ∨ (48 ≤ c ∧ c ≤ 57) ∨ c = 95 ∨
    c = 223 ∨ c = 230 ∨ c = 240 ∨ c = 248 ∨ c = 254 ∨ c = 956)

/-- No two adjacent spaces. -/
def noDouble : Str → Bool
  | [] => true
  | [_] => true
  | a :: b :: rest => if a = 32 ∧ b = 32 then false else noDouble (b :: rest)

/-- The first code point, if any, is not a space. -/
def noLead : Str → Bool
  | [] => true
  | c :: _ => decide (c ≠ 32)

/-! ## Character-level lemmas about the normalizer -/

/-- A successful lookup comes from an entry of the table. -/
theorem lookup_mem {t : List (Nat × List Nat)} {c : Nat} {l : List Nat}
    (h : t.lookup c = some l) : (c, l) ∈ t := by
  induction t with
  | nil => cases h
  | cons e rest ih =>
    obtain ⟨k, b⟩ := e
    rcases hbeq : (c == k) with _ | _
    · simp only [List.lookup, hbeq] at h
      exact List.mem_cons_of_mem _ (ih h)
    · simp only [List.lookup, hbeq] at h
      cases h
      have hk : c = k := eq_of_beq hbeq
      subst hk
      exact List.mem_cons_self _ _

/-- Lookup misses when no entry carries the key. -/
theorem lookup_none {t : List (Nat × List Nat)} {c : Nat}
    (h : ∀ e ∈ t, e.1 ≠ c) : t.lookup c = none := by
  induction t with
  | nil => rfl
  | cons e rest ih =>
    obtain ⟨k, b⟩ := e
    have hk : k ≠ c := h (k, b) (List.mem_cons_self _ _)
    simp only [List.lookup, beq_eq_false_iff_ne.mpr (Ne.symm hk)]
    exact ih fun e' he' => h e' (List.mem_cons_of_mem _ he')

/-- The table's keys: all in 0xA0-0xFF, never one of the code points that
have no decomposition. -/
theorem nfkd_keys : ∀ e ∈ nfkdTable, 160 ≤ e.1 ∧ e.1 ≤ 255 ∧ e.1 ≠ 215 ∧
    e.1 ≠ 223 ∧ e.1 ≠ 230 ∧ e.1 ≠ 240 ∧ e.1 ≠ 247 ∧ e.1 ≠ 248 ∧ e.1 ≠ 254 := by
  decide

/-- The non-decomposing code points of the modelled fragment. -/
theorem nfkd_fix (c : Nat)
    (h : c < 160 ∨ c = 215 ∨ c = 223 ∨ c = 230 ∨ c = 240 ∨ c = 247 ∨ c = 248 ∨
      c = 254 ∨ 256 ≤ c) :
    nfkd c = [c] := by
  unfold nfkd
  rw [lookup_none fun e he => by have := nfkd_keys e he; omega]
  rfl

/-- Code points below the table range do not decompose. -/
theorem nfkd_below (c : Nat) (h : c < 160) : nfkd c = [c] := nfkd_fix c (Or.inl h)

/-- Entries keyed at 0xE0 and above emit only ASCII lowercase bases and
combining marks. -/
theorem nfkd_out_lower : ∀ e ∈ nfkdTable, 224 ≤ e.1 → ∀ d ∈ e.2,
    (97 ≤ d ∧ d ≤ 122) ∨ (768 ≤ d ∧ d ≤ 879) := by
  decide

/-- Entries keyed at 0xBF and below emit only a space, a combining mark, a
digit, the letters a / o / mu, or a fraction slash. -/
theorem nfkd_out_mid : ∀ e ∈ nfkdTable, e.1 ≤ 191 → ∀ d ∈ e.2,
    d = 32 ∨ (768 ≤ d ∧ d ≤ 879) ∨ (48 ≤ d ∧ d ≤ 52) ∨ d = 97 ∨ d = 111 ∨
      d = 956 ∨ d = 8260 := by
  decide

/-- Every code point of 0xE0-0xFF without a table entry is one of the five
non-decomposing letters. -/
theorem nfkd_complete_lower : ∀ c ∈ List.range' 224 32,
    (nfkdTable.lookup c).isSome = true ∨ c = 230 ∨ c = 240 ∨ c = 247 ∨
      c = 248 ∨ c = 254 := by
  decide

/-- Every word character of 0xA0-0xBF has a table entry. -/
theorem nfkd_complete_mid : ∀ c ∈ List.range' 160 32,
    (nfkdTable.lookup c).isSome = true ∨ (c ≠ 170 ∧ c ≠ 181 ∧ c ≠ 186) := by
  decide

/-- Decompositions of the lowercase Latin-1 block: an ASCII lowercase base,
a combining mark, or the code point itself when it has no decomposition. -/
theorem nfkd_mem_lower (c d : Nat) (h1 : 224 ≤ c) (h2 : c ≤ 255)
    (hm : d ∈ nfkd c) :
    (97 ≤ d ∧ d ≤ 122) ∨ combining d = true ∨
      (d = c ∧ (c = 230 ∨ c = 240 ∨ c = 247 ∨ c = 248 ∨ c = 254)) := by
  simp only [combining, decide_eq_true_eq]
  unfold nfkd at hm
  cases hcase : nfkdTable.lookup c with
  | none =>
    rw [hcase] at hm
    simp only [Option.getD, List.mem_singleton] at hm
    have hc := nfkd_complete_lower c (by rw [List.mem_range'_1]; omega)
    rw [hcase] at hc
    simp only [Option.isSome_none, Bool.false_eq_true, false_or] at hc
    omega
  | some l =>
    rw [hcase] at hm
    simp only [Option.getD] at hm
    have := nfkd_out_lower (c, l) (lookup_mem hcase) h1 d hm
    omega

/-- Decompositions of the 0xA0-0xBF block: a space, a combining mark, a
digit, one of the letters a / o / mu, a fraction slash, or the code point
itself, which is then not a word character. -/
theorem nfkd_mem_mid (c d : Nat) (h1 : 160 ≤ c) (h2 : c ≤ 191)
    (hm : d ∈ nfkd c) :
    d = 32 ∨ combining d = true ∨ (48 ≤ d ∧ d ≤ 52) ∨ d = 97 ∨ d = 111 ∨
      d = 956 ∨ d = 8260 ∨
      (d = c ∧ c ≠ 170 ∧ c ≠ 181 ∧ c ≠ 186) := by
  simp only [combining, decide_eq_true_eq]
  unfold nfkd at hm
  cases hcase : nfkdTable.lookup c with
  | none =>
    rw [hcase] at hm
    simp only [Option.getD, List.mem_singleton] at hm
    have hc := nfkd_complete_mid c (by rw [List.mem_range'_1]; omega)
    rw [hcase] at hc
    simp only [Option.isSome_none, Bool.false_eq_true, false_or] at hc
    omega
  | some l =>
    rw [hcase] at hm
    simp only [Option.getD] at hm
    have := nfkd_out_mid (c, l) (lookup_mem hcase) (by omega) d hm
    omega

/-- Non-hyphen code points pass the hyphen replacement unchanged. -/
theorem hyphen_ne (c : Nat) (h : c ≠ 45) : hyphenToSpace c = c := by
  simp [hyphenToSpace, h]

/-- Every non-combining word character surviving the lower / hyphen / NFKD
stages lies in the output alphabet `goodOut`. -/
theorem emit_good (c d : Nat)
    (hm : d ∈ nfkd (hyphenToSpace (pyLower c)))
    (hcb : combining d = false) (hw : isWordChar d = true) :
    goodOut d = true := by
  simp only [isWordChar, decide_eq_true_eq] at hw
  simp only [goodOut, decide_eq_true_eq]
  by_cases h1 : 65 ≤ c ∧ c ≤ 90
  · simp only [pyLower, if_pos h1] at hm
    rw [hyphen_ne (c + 32) (by omega), nfkd_below (c + 32) (by omega)] at hm
    simp only [List.mem_singleton] at hm
    omega
  · by_cases h2 : 192 ≤ c ∧ c ≤ 222 ∧ c ≠ 215
    · simp only [pyLower, if_neg h1, if_pos h2] at hm
      rw [hyphen_ne (c + 32) (by omega)] at hm
      rcases nfkd_mem_lower (c + 32) d (by omega) (by omega) hm with h | h | h
      · omega
      · rw [h] at hcb; cases hcb
      · omega
    · simp only [pyLower, if_neg h1, if_neg h2] at hm
      by_cases h45 : c = 45
      · rw [h45, show hyphenToSpace 45 = 32 from rfl, nfkd_below 32 (by omega)] at hm
        simp only [List.mem_singleton] at hm
        omega
      · rw [hyphen_ne c h45] at hm
        rcases Nat.lt_or_ge c 160 with hc | hc
        · rw [nfkd_below c hc] at hm
          simp only [List.mem_singleton] at hm
          omega
        · rcases Nat.lt_or_ge c 192 with hc' | hc'
          · rcases nfkd_mem_mid c d hc (by omega) hm with
              h | h | h | h | h | h | h | h
            · omega
            · rw [h] at hcb; cases hcb
            · omega
            · omega
            · omega
            · omega
            · omega
            · omega
          · rcases Nat.lt_or_ge c 224 with hc'' | hc''
            · rw [nfkd_fix c (by omega)] at hm
              simp only [List.mem_singleton] at hm
              omega
            · rcases Nat.lt_or_ge c 256 with hc3 | hc3
              · rcases nfkd_mem_lower c d (by omega) (by omega) hm with h | h | h
                · omega
                · rw [h] at hcb; cases hcb
                · omega
              · rw [nfkd_fix c (by omega)] at hm
                simp only [List.mem_singleton] at hm
                omega


/-! ## Normalizer output well-formedness -/

/-- Membership in a concatenation comes from one of the pieces. -/
theorem mem_catLists {d : Nat} :
    ∀ {L : List (List Nat)}, d ∈ catLists L → ∃ l ∈ L, d ∈ l := by
  intro L
  induction L with
  | nil => intro h; cases h
  | cons l ls ih =>
    intro h
    simp only [catLists] at h
    rcases List.mem_append.mp h with h' | h'
    · exact ⟨l, List.mem_cons_self _ _, h'⟩
    · obtain ⟨l', hl', hd⟩ := ih h'
      exact ⟨l', List.mem_cons_of_mem _ hl', hd⟩

/-- Every code point after the word/space filter and space mapping is in
the output alphabet or is a space. -/
theorem spaced_good (s : Str) (d : Nat) (hd : d ∈ spaced s) :
    goodOut d = true ∨ d = 32 := by
  simp only [spaced, List.mem_map] at hd
  obtain ⟨e, he, hrw⟩ := hd
  simp only [preWs, List.mem_filter] at he
  obtain ⟨⟨hcat, hcb⟩, hws⟩ := he
  by_cases hsp : isSpaceChar e = true
  · right
    rw [← hrw]
    simp [wsChar, hsp]
  · have hw : isWordChar e = true := by
      have hws' : isWordChar e = true ∨ isSpaceChar e = true := by simpa using hws
      rcases hws' with h | h
      · exact h
      · exact absurd h hsp
    have hwse : wsChar e = e := by simp [wsChar, hsp]
    rw [← hrw, hwse]
    left
    obtain ⟨l, hl, hdl⟩ := mem_catLists hcat
    simp only [List.mem_map] at hl
    obtain ⟨c0, hc0, rfl⟩ := hl
    obtain ⟨c1, hc1, rfl⟩ := hc0
    obtain ⟨c2, hc2, rfl⟩ := hc1
    exact emit_good c2 e hdl (by simpa using hcb) hw

/-- Squeezing only drops code points. -/
theorem mem_squeeze {d : Nat} : ∀ {l : Str}, d ∈ squeeze l → d ∈ l := by
  intro l
  induction l with
  | nil => intro h; cases h
  | cons a t ih =>
    cases t with
    | nil => intro h; simpa [squeeze] using h
    | cons b r =>
      intro h
      simp only [squeeze] at h
      by_cases hc : a = 32 ∧ b = 32
      · rw [if_pos hc] at h
        exact List.mem_cons_of_mem _ (ih h)
      · rw [if_neg hc] at h
        rcases List.mem_cons.mp h with h' | h'
        · exact h' ▸ List.mem_cons_self _ _
        · exact List.mem_cons_of_mem _ (ih h')

/-- A list splits as its right strip followed by the stripped tail. -/
theorem rstrip_decomp (l : Str) :
    l = rstrip l ++ (l.reverse.takeWhile isSpaceChar).reverse := by
  calc l = (l.reverse).reverse := (List.reverse_reverse l).symm
    _ = ((l.reverse.takeWhile isSpaceChar) ++ (l.reverse.dropWhile isSpaceChar)).reverse := by
        rw [List.takeWhile_append_dropWhile]
    _ = (l.reverse.dropWhile isSpaceChar).reverse ++
          (l.reverse.takeWhile isSpaceChar).reverse := by
        rw [List.reverse_append]
    _ = rstrip l ++ (l.reverse.takeWhile isSpaceChar).reverse := rfl

/-- Left stripping only drops code points. -/
theorem mem_lstrip {d : Nat} {l : Str} (h : d ∈ lstrip l) : d ∈ l := by
  have hsplit := List.takeWhile_append_dropWhile isSpaceChar l
  rw [← hsplit]
  exact List.mem_append_right _ h

/-- Right stripping only drops code points. -/
theorem mem_rstrip {d : Nat} {l : Str} (h : d ∈ rstrip l) : d ∈ l := by
  rw [rstrip_decomp l]
  exact List.mem_append_left _ h

/-- The adjacency invariant restricts to the tail. -/
theorem noDouble_tail {a : Nat} {t : Str} (h : noDouble (a :: t) = true) :
    noDouble t = true := by
  cases t with
  | nil => rfl
  | cons b r =>
    simp only [noDouble] at h
    by_cases hc : a = 32 ∧ b = 32
    · rw [if_pos hc] at h; cases h
    · rwa [if_neg hc] at h

/-- Squeezing keeps the head. -/
theorem squeeze_cons (b : Nat) (rest : Str) :
    ∃ t, squeeze (b :: rest) = b :: t := by
  induction rest generalizing b with
  | nil => exact ⟨[], rfl⟩
  | cons c r ih =>
    by_cases h : b = 32 ∧ c = 32
    · obtain ⟨t, ht⟩ := ih c
      refine ⟨t, ?_⟩
      simp only [squeeze]
      rw [if_pos h, ht, h.1, h.2]
    · refine ⟨squeeze (c :: r), ?_⟩
      simp only [squeeze]
      rw [if_neg h]

/-- Squeezed output never holds two adjacent spaces. -/
theorem noDouble_squeeze : ∀ l : Str, noDouble (squeeze l) = true := by
  intro l
  induction l with
  | nil => rfl
  | cons a t ih =>
    cases t with
    | nil => rfl
    | cons b r =>
      simp only [squeeze]
      by_cases h : a = 32 ∧ b = 32
      · rw [if_pos h]
        exact ih
      · rw [if_neg h]
        obtain ⟨t', ht'⟩ := squeeze_cons b r
        rw [ht']
        simp only [noDouble]
        rw [if_neg h, ← ht']
        exact ih

/-- Dropping a space run preserves the adjacency invariant. -/
theorem noDouble_dropWhile {l : Str} (h : noDouble l = true) :
    noDouble (l.dropWhile isSpaceChar) = true := by
  induction l with
  | nil => rfl
  | cons a t ih =>
    rw [List.dropWhile_cons]
    by_cases hs : isSpaceChar a = true
    · rw [if_pos hs]
      exact ih (noDouble_tail h)
    · rwa [if_neg hs]

/-- After dropping the leading space run, the head is not a space. -/
theorem noLead_dropWhile (l : Str) : noLead (l.dropWhile isSpaceChar) = true := by
  induction l with
  | nil => rfl
  | cons a t ih =>
    rw [List.dropWhile_cons]
    by_cases hs : isSpaceChar a = true
    · rw [if_pos hs]; exact ih
    · rw [if_neg hs]
      simp only [noLead, decide_eq_true_eq]
      intro ha
      subst ha
      exact hs (by decide)

/-- The adjacency invariant restricts to a left factor. -/
theorem noDouble_append_left : ∀ xs ys : Str,
    noDouble (xs ++ ys) = true → noDouble xs = true := by
  intro xs
  induction xs with
  | nil => intro ys _; rfl
  | cons a t ih =>
    intro ys h
    cases t with
    | nil => rfl
    | cons b r =>
      rw [List.cons_append, List.cons_append] at h
      simp only [noDouble] at h ⊢
      by_cases hc : a = 32 ∧ b = 32
      · rw [if_pos hc] at h; cases h
      · rw [if_neg hc] at h ⊢
        exact ih ys (by rwa [List.cons_append])

/-- The head invariant restricts to a left factor. -/
theorem noLead_append_left {xs ys : Str} (h : noLead (xs ++ ys) = true) :
    noLead xs = true := by
  cases xs with
  | nil => rfl
  | cons a t =>
    rw [List.cons_append] at h
    simpa only [noLead] using h

/-- The output of `normalize` is made of output-alphabet code points and
single separating spaces, with no leading or trailing space. -/
theorem normalize_wf (s : Str) :
    ((normalize s).all fun c => goodOut c || c == 32) = true ∧
      noDouble (normalize s) = true ∧
      noLead (normalize s) = true ∧
      noLead (normalize s).reverse = true := by
  by_cases hs : s = []
  · unfold normalize
    rw [if_pos hs]
    exact ⟨rfl, rfl, rfl, rfl⟩
  · unfold normalize
    rw [if_neg hs]
    refine ⟨?_, ?_, ?_, ?_⟩
    · rw [List.all_eq_true]
      intro d hd
      rcases spaced_good s d (mem_squeeze (mem_lstrip (mem_rstrip hd))) with h | h
      · simp [h]
      · simp [h]
    · have h2 : noDouble (lstrip (squeeze (spaced s))) = true :=
        noDouble_dropWhile (noDouble_squeeze (spaced s))
      rw [rstrip_decomp (lstrip (squeeze (spaced s)))] at h2
      exact noDouble_append_left _ _ h2
    · have h3 : noLead (lstrip (squeeze (spaced s))) = true :=
        noLead_dropWhile (squeeze (spaced s))
      rw [rstrip_decomp (lstrip (squeeze (spaced s)))] at h3
      exact noLead_append_left h3
    · simp only [rstrip, List.reverse_reverse]
      exact noLead_dropWhile _

/-- Pointwise facts about the output alphabet: fixed by every
character-level stage of the normalizer. -/
theorem goodOut_props (c : Nat) (h : goodOut c = true) :
    pyLower c = c ∧ hyphenToSpace c = c ∧ nfkd c = [c] ∧ combining c = false ∧
      isWordChar c = true ∧ isSpaceChar c = false := by
  simp only [goodOut, decide_eq_true_eq] at h
  refine ⟨?_, ?_, ?_, ?_, ?_, ?_⟩
  · unfold pyLower
    rw [if_neg (by omega), if_neg (by omega)]
  · unfold hyphenToSpace
    rw [if_neg (by omega)]
  · exact nfkd_fix c (by omega)
  · simp only [combining, decide_eq_false_iff_not]
    omega
  · simp only [isWordChar, decide_eq_true_eq]
    omega
  · simp only [isSpaceChar, decide_eq_false_iff_not]
    omega

/-- A pointwise-fixed map is the identity. -/
theorem map_fix {f : Nat → Nat} :
    ∀ {l : Str}, (∀ c ∈ l, f c = c) → l.map f = l := by
  intro l
  induction l with
  | nil => intro _; rfl
  | cons a t ih =>
    intro h
    simp only [List.map_cons]
    rw [h a (List.mem_cons_self _ _), ih fun c hc => h c (List.mem_cons_of_mem _ hc)]

/-- Decomposition is the identity on non-decomposing code points. -/
theorem catLists_fix :
    ∀ {l : Str}, (∀ c ∈ l, nfkd c = [c]) → catLists (l.map nfkd) = l := by
  intro l
  induction l with
  | nil => intro _; rfl
  | cons a t ih =>
    intro h
    simp only [List.map_cons, catLists]
    rw [h a (List.mem_cons_self _ _), ih fun c hc => h c (List.mem_cons_of_mem _ hc)]
    rfl

/-- A pointwise-true filter is the identity. -/
theorem filter_fix {p : Nat → Bool} :
    ∀ {l : Str}, (∀ c ∈ l, p c = true) → l.filter p = l := by
  intro l
  induction l with
  | nil => intro _; rfl
  | cons a t ih =>
    intro h
    rw [List.filter_cons, if_pos (h a (List.mem_cons_self _ _)),
      ih fun c hc => h c (List.mem_cons_of_mem _ hc)]

/-- Squeezing fixes a list with no adjacent spaces. -/
theorem squeeze_fix : ∀ {l : Str}, noDouble l = true → squeeze l = l := by
  intro l
  induction l with
  | nil => intro _; rfl
  | cons a t ih =>
    intro h
    cases t with
    | nil => rfl
    | cons b r =>
      simp only [squeeze]
      simp only [noDouble] at h
      by_cases hc : a = 32 ∧ b = 32
      · rw [if_pos hc] at h; cases h
      · rw [if_neg hc] at h
        rw [if_neg hc, ih h]

/-- Dropping the leading space run fixes a list whose head is not a space
and whose code points are in the output alphabet or spaces. -/
theorem dropWhile_fix {l : Str} (h : noLead l = true)
    (hall : ∀ c ∈ l, goodOut c = true ∨ c = 32) :
    l.dropWhile isSpaceChar = l := by
  cases l with
  | nil => rfl
  | cons a t =>
    have ha : a ≠ 32 := by simpa only [noLead, decide_eq_true_eq] using h
    rcases hall a (List.mem_cons_self _ _) with hg | hg
    · rw [List.dropWhile_cons]
      simp [(goodOut_props a hg).2.2.2.2.2]
    · exact absurd hg ha

/-- A well-formed string is a fixed point of `normalize`. -/
theorem normalize_fix {r : Str}
    (hall : ∀ c ∈ r, goodOut c = true ∨ c = 32)
    (hnd : noDouble r = true) (hnl : noLead r = true)
    (hnt : noLead r.reverse = true) :
    normalize r = r := by
  by_cases hr : r = []
  · rw [hr]; rfl
  · unfold normalize
    rw [if_neg hr]
    have h1 : r.map pyLower = r :=
      map_fix fun c hc => by
        rcases hall c hc with hg | hg
        · exact (goodOut_props c hg).1
        · rw [hg]; decide
    have h2 : r.map hyphenToSpace = r :=
      map_fix fun c hc => by
        rcases hall c hc with hg | hg
        · exact (goodOut_props c hg).2.1
        · rw [hg]; decide
    have h3 : catLists (r.map nfkd) = r :=
      catLists_fix fun c hc => by
        rcases hall c hc with hg | hg
        · exact (goodOut_props c hg).2.2.1
        · rw [hg]; decide
    have h4 : r.filter (fun c => !(combining c)) = r :=
      filter_fix fun c hc => by
        rcases hall c hc with hg | hg
        · rw [(goodOut_props c hg).2.2.2.1]; rfl
        · rw [hg]; decide
    have h5 : r.filter (fun c => isWordChar c || isSpaceChar c) = r :=
      filter_fix fun c hc => by
        rcases hall c hc with hg | hg
        · rw [(goodOut_props c hg).2.2.2.2.1]; rfl
        · rw [hg]; decide
    have h6 : r.map wsChar = r :=
      map_fix fun c hc => by
        rcases hall c hc with hg | hg
        · unfold wsChar
          rw [(goodOut_props c hg).2.2.2.2.2]
          rfl
        · rw [hg]; decide
    have h7 : squeeze r = r := squeeze_fix hnd
    have h8 : lstrip r = r := dropWhile_fix hnl hall
    have h9 : rstrip r = r := by
      simp only [rstrip]
      rw [dropWhile_fix hnt fun c hc => hall c (List.mem_reverse.mp hc),
        List.reverse_reverse]
    simp only [spaced, preWs]
    rw [h1, h2, h3, h4, h5, h6, h7]
    show rstrip (lstrip r) = r
    rw [h8, h9]


/-! ## The fuzzy tier -/

/-- Characterization of the fuzzy scan: either no candidate beats the
initial score and the accumulator is returned, or the result is the first
candidate attaining the maximum similarity. -/
theorem bestFuzzyAux_spec (ln : Str) :
    ∀ (l : List (Str × Nat)) (bc : Option Nat) (bs : ℚ),
      (bestFuzzyAux ln l bc bs = (bc, bs) ∧ ∀ p ∈ l, similarity ln p.1 ≤ bs) ∨
      (∃ pre k c post, l = pre ++ (k, c) :: post ∧
        bestFuzzyAux ln l bc bs = (some c, similarity ln k) ∧
        bs < similarity ln k ∧
        (∀ p ∈ pre, similarity ln p.1 < similarity ln k) ∧
        (∀ p ∈ l, similarity ln p.1 ≤ similarity ln k)) := by
  intro l
  induction l with
  | nil =>
    intro bc bs
    left
    exact ⟨rfl, by intro p hp; cases hp⟩
  | cons hd rest ih =>
    intro bc bs
    obtain ⟨k0, c0⟩ := hd
    by_cases hgt : similarity ln k0 > bs
    · have step : bestFuzzyAux ln ((k0, c0) :: rest) bc bs
          = bestFuzzyAux ln rest (some c0) (similarity ln k0) := by
        simp only [bestFuzzyAux]
        rw [if_pos hgt]
      rcases ih (some c0) (similarity ln k0) with ⟨heq, hall⟩ |
        ⟨pre, k, c, post, hsplit, heq, hlt, hpre, hall⟩
      · right
        refine ⟨[], k0, c0, rest, rfl, ?_, hgt, ?_, ?_⟩
        · rw [step, heq]
        · intro p hp; cases hp
        · intro p hp
          rcases List.mem_cons.mp hp with h | h
          · rw [h]
          · exact hall p h
      · right
        refine ⟨(k0, c0) :: pre, k, c, post, by rw [hsplit, List.cons_append], ?_, lt_trans hgt hlt,
          ?_, ?_⟩
        · rw [step, heq]
        · intro p hp
          rcases List.mem_cons.mp hp with h | h
          · rw [h]; exact hlt
          · exact hpre p h
        · intro p hp
          rcases List.mem_cons.mp hp with h | h
          · rw [h]; exact le_of_lt hlt
          · exact hall p h
    · have step : bestFuzzyAux ln ((k0, c0) :: rest) bc bs
          = bestFuzzyAux ln rest bc bs := by
        simp only [bestFuzzyAux]
        rw [if_neg hgt]
      have hle : similarity ln k0 ≤ bs := not_lt.mp hgt
      rcases ih bc bs with ⟨heq, hall⟩ |
        ⟨pre, k, c, post, hsplit, heq, hlt, hpre, hall⟩
      · left
        refine ⟨by rw [step, heq], ?_⟩
        intro p hp
        rcases List.mem_cons.mp hp with h | h
        · rw [h]; exact hle
        · exact hall p h
      · right
        refine ⟨(k0, c0) :: pre, k, c, post, by rw [hsplit, List.cons_append], by rw [step, heq],
          hlt, ?_, ?_⟩
        · intro p hp
          rcases List.mem_cons.mp hp with h | h
          · rw [h]; exact lt_of_le_of_lt hle hlt
          · exact hpre p h
        · intro p hp
          rcases List.mem_cons.mp hp with h | h
          · rw [h]; exact le_trans hle (le_of_lt hlt)
          · exact hall p h

/-! ## The cascade tiers -/

/-- An exact hit resolves through the first tier, not flagged fuzzy. -/
theorem resolve_exact (ln : Str) (idx : List (Str × Nat)) (c : Nat) (m : ℚ)
    (h : dictFind idx ln = some c) : resolve ln idx m = (some c, false) := by
  unfold resolve
  rw [h]

/-- A containment hit after an exact miss resolves through the second tier,
not flagged fuzzy. -/
theorem resolve_contain (ln : Str) (idx : List (Str × Nat)) (c : Nat) (m : ℚ)
    (h1 : dictFind idx ln = none) (h2 : containment ln idx = some c) :
    resolve ln idx m = (some c, false) := by
  unfold resolve
  rw [h1, h2]

/-- When the resolver yields no identifier, its fuzzy flag is false. -/
theorem resolve_none (ln : Str) (idx : List (Str × Nat)) (m : ℚ)
    (h : (resolve ln idx m).1 = none) : resolve ln idx m = (none, false) := by
  unfold resolve at h ⊢
  cases hd : dictFind idx ln with
  | some c => simp [hd] at h
  | none =>
    simp only [hd] at h ⊢
    cases hc : containment ln idx with
    | some c => simp [hc] at h
    | none =>
      simp only [hc] at h ⊢
      cases hb : (best_fuzzy_match ln idx m).1 with
      | some c => simp [hb] at h
      | none => simp only [hb]

/-- A containment scan skips over a block of failing entries. -/
theorem containment_skip (ln : Str) :
    ∀ pre rest : List (Str × Nat), (∀ p ∈ pre, containPred ln p.1 = false) →
      containment ln (pre ++ rest) = containment ln rest := by
  intro pre
  induction pre with
  | nil => intro rest _; rfl
  | cons e t ih =>
    intro rest h
    obtain ⟨k, c⟩ := e
    have hf : containPred ln k = false := h (k, c) (List.mem_cons_self _ _)
    simp only [List.cons_append, containment, hf, Bool.false_eq_true, if_false]
    exact ih rest fun p hp => h p (List.mem_cons_of_mem _ hp)

/-- A containment scan returns the head entry when its condition holds. -/
theorem containment_hit (ln k : Str) (c : Nat) (rest : List (Str × Nat))
    (h : containPred ln k = true) :
    containment ln ((k, c) :: rest) = some c := by
  simp only [containment, h, if_true]

/-- The empty string is a substring of everything. -/
theorem isSubstr_nil : ∀ b : Str, isSubstr [] b = true := by
  intro b
  cases b with
  | nil => rfl
  | cons x t => rfl

/-! ## The reconcile loop -/

/-- A matched resolution writes the photo code and reports a match. -/
theorem reconcileStep_matched (idx : List (Str × Nat)) (p : Player) (c : Nat)
    (fz : Bool) (h : resolve (normalize p.name) idx (0.86 : ℚ) = (some c, fz)) :
    reconcileStep idx p = (⟨p.id, p.name, some c⟩, true, fz) := by
  unfold reconcileStep
  rw [h]

/-- An unmatched resolution leaves the player untouched. -/
theorem reconcileStep_unmatched (idx : List (Str × Nat)) (p : Player)
    (h : (resolve (normalize p.name) idx (0.86 : ℚ)).1 = none) :
    reconcileStep idx p = (p, false, false) := by
  unfold reconcileStep
  rw [resolve_none (normalize p.name) idx (0.86 : ℚ) h]

/-- The fuzzy flag of a step implies its matched flag. -/
theorem reconcileStep_fz (idx : List (Str × Nat)) (p : Player)
    (h : (reconcileStep idx p).2.2 = true) : (reconcileStep idx p).2.1 = true := by
  unfold reconcileStep at h ⊢
  rcases hres : resolve (normalize p.name) idx (0.86 : ℚ) with ⟨fst, snd⟩
  rcases fst with _ | c
  · simp [hres] at h
  · simp [hres]

/-- The matched flag of a step is the success of the resolver. -/
theorem reconcileStep_flag (idx : List (Str × Nat)) (p : Player) :
    (reconcileStep idx p).2.1 =
      ((resolve (normalize p.name) idx (0.86 : ℚ)).1).isSome := by
  unfold reconcileStep
  rcases hres : resolve (normalize p.name) idx (0.86 : ℚ) with ⟨fst, snd⟩
  rcases fst with _ | c <;> simp


/-- One unfolding of the reconcile loop. -/
theorem reconcile_cons (idx : List (Str × Nat)) (p : Player) (rest : List Player) :
    reconcile (p :: rest) idx =
      ((reconcileStep idx p).1 :: (reconcile rest idx).1,
        (if (reconcileStep idx p).2.1 then 1 else 0) + (reconcile rest idx).2.1,
        (if (reconcileStep idx p).2.2 then 1 else 0) + (reconcile rest idx).2.2) :=
  rfl

/-! ## The propagation step -/

/-- The join key when the base-identifier field is present and non-empty. -/
theorem baseId_base (p : UiPlayer) (b : Str) (hb : p.basePlayerId = some b)
    (hne : b ≠ []) : baseId p = b.takeWhile fun c => !(c == 45) := by
  unfold baseId
  rw [hb]
  simp only [truthy]
  rw [if_neg hne]

/-- The join key falls back to the record's own identifier when the
base-identifier field is absent or empty. -/
theorem baseId_id (p : UiPlayer) (i : Str)
    (hb : p.basePlayerId = none ∨ p.basePlayerId = some [])
    (hi : p.id = some i) (hine : i ≠ []) :
    baseId p = i.takeWhile fun c => !(c == 45) := by
  unfold baseId
  rcases hb with hb | hb
  · rw [hb, hi]
    simp [truthy, hine]
  · rw [hb, hi]
    simp [truthy, hine]

/-! ## Evaluated similarity scores for the boundary witnesses -/

set_option maxRecDepth 10000 in
/-- A pair of strings whose difflib ratio is exactly 0.86: a common block
of 43 symbols against lengths 57 and 43. -/
theorem sim_boundary_hit :
    similarity (List.replicate 43 120 ++ ofString "abcdefghijklmn")
      (List.replicate 43 120) = (0.86 : ℚ) := by
  unfold similarity
  rw [if_pos (by decide)]
  have hm : matchTotal (List.replicate 43 120 ++ ofString "abcdefghijklmn")
      (List.replicate 43 120) = 43 := by decide
  have hl : (List.replicate 43 120 ++ ofString "abcdefghijklmn").length +
      (List.replicate 43 120).length = 100 := by decide
  rw [hm, hl]
  norm_num

/-- A pair of strings whose difflib ratio is 6/7, strictly below 0.86. -/
theorem sim_boundary_miss :
    similarity (ofString "abcdefg") (ofString "abcdefh") = 6 / 7 := by
  unfold similarity
  rw [if_pos (by decide)]
  have hm : matchTotal (ofString "abcdefg") (ofString "abcdefh") = 6 := by decide
  have hl : (ofString "abcdefg").length + (ofString "abcdefh").length = 14 := by
    decide
  rw [hm, hl]
  norm_num

/-! ## The claims -/

/-- C1: whenever the normalized local name is a key of the index, the
resolver returns that key's identifier through the exact tier with the
fuzzy flag false, whatever the rest of the index holds — the containment
and fuzzy tiers are never consulted. -/
theorem exact_tier_precedence (ln : Str) (idx : List (Str × Nat)) (c : Nat)
    (q : ℚ) (h : dictFind idx ln = some c) : resolve ln idx q = (some c, false) := by
  unfold resolve
  rw [h]

/-- C1 witness: a concrete exact hit. -/
theorem exact_tier_precedence_check :
    resolve (ofString "salah") [(ofString "salah", 101)] (0.86 : ℚ) =
      (some 101, false) :=
  exact_tier_precedence (ofString "salah") [(ofString "salah", 101)] 101
    (0.86 : ℚ) (by decide)

/-- C2: after an exact miss, the containment tier returns the identifier of
the first key in insertion order satisfying the containment condition; all
earlier keys fail it, and later keys are never considered regardless of
length or score. -/
theorem containment_first_match (ln : Str) (idx : List (Str × Nat)) (q : ℚ)
    (pre : List (Str × Nat)) (k : Str) (c : Nat) (post : List (Str × Nat))
    (hex : dictFind idx ln = none)
    (hsplit : idx = pre ++ (k, c) :: post)
    (hpre : ∀ p ∈ pre, containPred ln p.1 = false)
    (hk : containPred ln k = true) :
    resolve ln idx q = (some c, false) := by
  apply resolve_contain ln idx c q hex
  rw [hsplit, containment_skip ln pre ((k, c) :: post) hpre,
    containment_hit ln k c post hk]

/-- C2 witness: two keys both satisfy containment for the local name
"sonnyx"; the earlier-inserted "son" wins over the longer "sonny". -/
theorem containment_first_match_check :
    resolve (ofString "sonnyx") [(ofString "son", 1), (ofString "sonny", 2)]
      (0.86 : ℚ) = (some 1, false) :=
  containment_first_match (ofString "sonnyx")
    [(ofString "son", 1), (ofString "sonny", 2)] (0.86 : ℚ)
    [] (ofString "son") 1 [(ofString "sonny", 2)]
    (by decide) rfl (by intro p hp; cases hp) (by decide)

/-- C3: a candidate scoring exactly 0.86 is accepted (the threshold test is
non-strict), a scan whose every candidate scores strictly below 0.86
returns no code, and the returned code always belongs to the first
candidate attaining the maximum similarity, because only a strictly
greater score replaces the running best. -/
theorem fuzzy_threshold_tiebreak (ln : Str) (cands : List (Str × Nat)) :
    ((∃ p ∈ cands, similarity ln p.1 = (0.86 : ℚ)) →
      ((best_fuzzy_match ln cands (0.86 : ℚ)).1).isSome = true) ∧
    ((∀ p ∈ cands, similarity ln p.1 < (0.86 : ℚ)) →
      (best_fuzzy_match ln cands (0.86 : ℚ)).1 = none) ∧
    (∀ c, (best_fuzzy_match ln cands (0.86 : ℚ)).1 = some c →
      ∃ pre k post, cands = pre ++ (k, c) :: post ∧
        (∀ p ∈ pre, similarity ln p.1 < similarity ln k) ∧
        (∀ p ∈ cands, similarity ln p.1 ≤ similarity ln k) ∧
        (0.86 : ℚ) ≤ similarity ln k) := by
  have hspec := bestFuzzyAux_spec ln cands none 0
  refine ⟨?_, ?_, ?_⟩
  · rintro ⟨p, hp, hsim⟩
    rcases hspec with ⟨heq, hall⟩ | ⟨pre, k, c, post, hsplit, heq, hlt, hpre, hall⟩
    · exfalso
      have hle := hall p hp
      rw [hsim] at hle
      norm_num at hle
    · have h86 : (0.86 : ℚ) ≤ similarity ln k := hsim ▸ hall p hp
      unfold best_fuzzy_match
      rw [heq]
      rw [if_pos h86]
      rfl
  · intro hall86
    rcases hspec with ⟨heq, hall⟩ | ⟨pre, k, c, post, hsplit, heq, hlt, hpre, hall⟩
    · unfold best_fuzzy_match
      rw [heq, if_neg (by norm_num)]
    · have hk : similarity ln k < (0.86 : ℚ) := by
        refine hall86 (k, c) ?_
        rw [hsplit]
        exact List.mem_append_right _ (List.mem_cons_self _ _)
      unfold best_fuzzy_match
      rw [heq, if_neg (not_le.mpr hk)]
  · intro c hc
    unfold best_fuzzy_match at hc
    rcases hspec with ⟨heq, hall⟩ | ⟨pre, k, c', post, hsplit, heq, hlt, hpre, hall⟩
    · rw [heq] at hc
      by_cases h86 : (0.86 : ℚ) ≤ (0 : ℚ)
      · norm_num at h86
      · rw [if_neg h86] at hc
        simp at hc
    · rw [heq] at hc
      by_cases h86 : (0.86 : ℚ) ≤ similarity ln k
      · rw [if_pos h86] at hc
        have hcc : c' = c := by simpa using hc
        subst hcc
        exact ⟨pre, k, post, hsplit, hpre, hall, h86⟩
      · rw [if_neg h86] at hc
        simp at hc

/-- C3 witness: a candidate with ratio exactly 0.86 is matched; a scan
whose only candidate scores 6/7 < 0.86 is not. -/
theorem fuzzy_threshold_tiebreak_check :
    ((best_fuzzy_match (List.replicate 43 120 ++ ofString "abcdefghijklmn")
        [(List.replicate 43 120, 7)] (0.86 : ℚ)).1).isSome = true ∧
    (best_fuzzy_match (ofString "abcdefg") [(ofString "abcdefh", 3)]
      (0.86 : ℚ)).1 = none := by
  constructor
  · exact (fuzzy_threshold_tiebreak
      (List.replicate 43 120 ++ ofString "abcdefghijklmn")
      [(List.replicate 43 120, 7)]).1
      ⟨(List.replicate 43 120, 7), List.mem_cons_self _ _, sim_boundary_hit⟩
  · refine (fuzzy_threshold_tiebreak (ofString "abcdefg")
      [(ofString "abcdefh", 3)]).2.1 ?_
    intro p hp
    rcases List.mem_cons.mp hp with h | h
    · rw [h]
      show similarity (ofString "abcdefg") (ofString "abcdefh") < (0.86 : ℚ)
      rw [sim_boundary_miss]
      norm_num
    · cases h

/-- C4 counterexample: the normalized local name "mo salah" is not a key of
the index built from the single record (101, Mohamed, Salah, Salah), so the
exact tier cannot produce the match the claim attributes to it. -/
theorem mo_salah_exact_miss :
    dictFind
      (buildIndex [⟨101, ofString "Mohamed", ofString "Salah", ofString "Salah"⟩])
      (normalize (ofString "Mo Salah")) = none := by
  decide

/-- C4 amended: reconciliation of the Mo Salah example sets photoCode 101
with report (matched 1, fuzzyMatched 0), but through the containment tier
(key "salah" is contained in "mo salah"), the exact tier having missed. -/
theorem mo_salah_reconcile :
    reconcile [⟨ofString "1", ofString "Mo Salah", none⟩]
        (buildIndex
          [⟨101, ofString "Mohamed", ofString "Salah", ofString "Salah"⟩]) =
      ([⟨ofString "1", ofString "Mo Salah", some 101⟩], 1, 0) ∧
    containment (normalize (ofString "Mo Salah"))
        (buildIndex
          [⟨101, ofString "Mohamed", ofString "Salah", ofString "Salah"⟩]) =
      some 101 := by
  constructor
  · decide
  · decide

/-- C5 counterexample: normalize keeps the underscore of "a_b", so its
output is not made of lowercase alphanumerics and spaces only. -/
theorem normalize_underscore_kept :
    (normalize (ofString "a_b")).all specLowerAlnumSpace = false := by
  decide

/-- C5 amended: every output code point of normalize is a lowercase
alphanumeric character, an underscore, or a space, and spaces are single
separators: no leading space, no trailing space, no two adjacent spaces. -/
theorem normalize_output_charset (s : Str) :
    ((normalize s).all fun c => goodOut c || c == 32) = true ∧
      noDouble (normalize s) = true ∧
      noLead (normalize s) = true ∧
      noLead (normalize s).reverse = true :=
  normalize_wf s

/-- C6: normalize is idempotent. -/
theorem normalize_idempotent (s : Str) :
    normalize (normalize s) = normalize s := by
  obtain ⟨h1, h2, h3, h4⟩ := normalize_wf s
  refine normalize_fix ?_ h2 h3 h4
  intro c hc
  have h := List.all_eq_true.mp h1 c hc
  simpa using h

/-- C7: the enriched list is as long as the input, a player the resolver
does not match is returned exactly as it was (photoCode neither set nor
overwritten), and the matched counter counts exactly the players the
resolver matched. -/
theorem unmatched_players_unchanged (idx : List (Str × Nat))
    (players : List Player) :
    (reconcile players idx).1.length = players.length ∧
    (∀ pr ∈ players.zip (reconcile players idx).1,
      (resolve (normalize pr.1.name) idx (0.86 : ℚ)).1 = none → pr.2 = pr.1) ∧
    (reconcile players idx).2.1 =
      (players.filter fun p =>
        ((resolve (normalize p.name) idx (0.86 : ℚ)).1).isSome).length := by
  induction players with
  | nil => exact ⟨rfl, fun pr hpr => absurd hpr (List.not_mem_nil pr), rfl⟩
  | cons p rest ih =>
    obtain ⟨ih1, ih2, ih3⟩ := ih
    rw [reconcile_cons]
    refine ⟨?_, ?_, ?_⟩
    · simp only [List.length_cons, ih1]
    · intro pr hpr
      rw [List.zip_cons_cons] at hpr
      rcases List.mem_cons.mp hpr with h | h
      · rw [h]
        intro hnone
        show (reconcileStep idx p).1 = p
        rw [reconcileStep_unmatched idx p hnone]
      · exact ih2 pr h
    · rw [List.filter_cons]
      by_cases hsome : ((resolve (normalize p.name) idx (0.86 : ℚ)).1).isSome = true
      · have hm : (reconcileStep idx p).2.1 = true := by
          rw [reconcileStep_flag idx p]
          exact hsome
        rw [if_pos hsome, hm, ih3, List.length_cons]
        exact Nat.add_comm 1 _
      · have hm : (reconcileStep idx p).2.1 = false := by
          rw [reconcileStep_flag idx p]
          exact Bool.eq_false_iff.mpr hsome
        rw [if_neg hsome, hm, ih3]
        exact Nat.zero_add _

/-- C7 witness: a player whose name matches nothing in an empty index is
returned unchanged. -/
theorem unmatched_players_unchanged_check :
    (resolve (normalize (Player.mk (ofString "1") (ofString "qq") none).name)
      ([] : List (Str × Nat)) (0.86 : ℚ)).1 = none ∧
    (Player.mk (ofString "1") (ofString "qq") none,
      Player.mk (ofString "1") (ofString "qq") none).2 =
      (Player.mk (ofString "1") (ofString "qq") none,
        Player.mk (ofString "1") (ofString "qq") none).1 := by
  have hres : (resolve (normalize (Player.mk (ofString "1") (ofString "qq")
      none).name) ([] : List (Str × Nat)) (0.86 : ℚ)).1 = none := by
    unfold resolve best_fuzzy_match bestFuzzyAux
    rw [show dictFind ([] : List (Str × Nat))
        (normalize (ofString "qq")) = none from rfl]
    rw [show containment (normalize (ofString "qq"))
        ([] : List (Str × Nat)) = none from rfl]
    rw [if_neg (by norm_num : ¬((0.86 : ℚ) ≤ (0 : ℚ)))]
  refine ⟨hres, ?_⟩
  have hstep := reconcileStep_unmatched ([] : List (Str × Nat))
    (Player.mk (ofString "1") (ofString "qq") none) hres
  have hmem : (Player.mk (ofString "1") (ofString "qq") none,
      Player.mk (ofString "1") (ofString "qq") none) ∈
      [Player.mk (ofString "1") (ofString "qq") none].zip
        (reconcile [Player.mk (ofString "1") (ofString "qq") none]
          ([] : List (Str × Nat))).1 := by
    rw [reconcile_cons, hstep]
    exact List.mem_cons_self _ _
  exact (unmatched_players_unchanged ([] : List (Str × Nat))
    [Player.mk (ofString "1") (ofString "qq") none]).2.1
    (Player.mk (ofString "1") (ofString "qq") none,
      Player.mk (ofString "1") (ofString "qq") none) hmem hres

/-- C8: the propagation step joins a derived record by its base-identifier
field when present and non-empty, else by its own identifier, in both
cases stripping any suffix after the dash; and on the concrete example it
copies photoCode 101 onto the derived player and counts it as synced. -/
theorem propagation_join :
    (∀ (cm : List (Str × Nat)) (p : UiPlayer) (b : Str) (c : Nat),
      p.basePlayerId = some b → b ≠ [] →
      dictFind cm (b.takeWhile fun c => !(c == 45)) = some c →
      propagateStep cm p = (⟨p.id, p.basePlayerId, some c⟩, 1)) ∧
    (∀ (cm : List (Str × Nat)) (p : UiPlayer) (i : Str) (c : Nat),
      (p.basePlayerId = none ∨ p.basePlayerId = some []) → p.id = some i →
      i ≠ [] →
      dictFind cm (i.takeWhile fun c => !(c == 45)) = some c →
      propagateStep cm p = (⟨p.id, p.basePlayerId, some c⟩, 1)) ∧
    propagate [⟨none, some (ofString "1-variantA"), none⟩]
        [⟨ofString "1", ofString "x", some 101⟩] =
      ([⟨none, some (ofString "1-variantA"), some 101⟩], 1) := by
  refine ⟨?_, ?_, by decide⟩
  · intro cm p b c hb hbne hfind
    unfold propagateStep
    rw [baseId_base p b hb hbne, hfind]
  · intro cm p i c hb hi hine hfind
    unfold propagateStep
    rw [baseId_id p i hb hi hine, hfind]

/-- C8 witness: the base identifier "1-variantA" joins as "1" and receives
photoCode 101. -/
theorem propagation_join_check :
    propagateStep [(ofString "1", 101)]
        ⟨none, some (ofString "1-variantA"), none⟩ =
      (⟨none, some (ofString "1-variantA"), some 101⟩, 1) :=
  propagation_join.1 [(ofString "1", 101)]
    ⟨none, some (ofString "1-variantA"), none⟩
    (ofString "1-variantA") 101 rfl (by decide) (by decide)

/-- C9: the reconciliation counters satisfy fuzzyMatched ≤ matched ≤
totalPlayers: each player contributes at most one matched increment, and a
fuzzy increment only alongside a matched increment. -/
theorem report_counters_bounded (idx : List (Str × Nat))
    (players : List Player) :
    (reconcile players idx).2.2 ≤ (reconcile players idx).2.1 ∧
    (reconcile players idx).2.1 ≤ players.length := by
  induction players with
  | nil => exact ⟨Nat.le_refl 0, Nat.le_refl 0⟩
  | cons p rest ih =>
    obtain ⟨ih1, ih2⟩ := ih
    rw [reconcile_cons]
    constructor
    · have hb : (if (reconcileStep idx p).2.2 then (1 : Nat) else 0) ≤
          (if (reconcileStep idx p).2.1 then (1 : Nat) else 0) := by
        rcases hfz : (reconcileStep idx p).2.2 with _ | _
        · simp
        · rw [reconcileStep_fz idx p hfz]
      exact Nat.add_le_add hb ih1
    · have hb : (if (reconcileStep idx p).2.1 then (1 : Nat) else 0) ≤ 1 := by
        rcases hm : (reconcileStep idx p).2.1 with _ | _ <;> simp
      exact le_trans (Nat.add_le_add hb ih2)
        (Nat.le_of_eq (Nat.add_comm 1 rest.length))

/-- C10: a local player whose raw name normalizes to the empty string is
not left unmatched when the index has no empty key: the containment tier
fires (the empty string is a substring of every key) and assigns the
identifier of the first key in insertion order, without the fuzzy flag. -/
theorem empty_name_containment (p : Player) (idx : List (Str × Nat)) (k : Str)
    (c : Nat) (post : List (Str × Nat))
    (hname : normalize p.name = [])
    (hsplit : idx = (k, c) :: post)
    (hempty : dictFind idx [] = none) :
    reconcileStep idx p = (⟨p.id, p.name, some c⟩, true, false) := by
  rw [hsplit] at hempty
  have hk : k ≠ [] := by
    intro hknil
    simp [dictFind, hknil] at hempty
  have hcp : containPred [] k = true := by
    rcases k with _ | ⟨x, t⟩
    · exact absurd rfl hk
    · simp [containPred, isSubstr, isPrefixList]
  apply reconcileStep_matched idx p c false
  rw [hname, hsplit]
  exact resolve_contain [] ((k, c) :: post) c (0.86 : ℚ) hempty
    (containment_hit [] k c post hcp)

/-- C10 witness: the name "!!!" normalizes to the empty string and is
assigned the first key's identifier by containment. -/
theorem empty_name_containment_check :
    reconcileStep [(ofString "abc", 7)]
        (Player.mk (ofString "9") (ofString "!!!") none) =
      (Player.mk (ofString "9") (ofString "!!!") (some 7), true, false) :=
  empty_name_containment (Player.mk (ofString "9") (ofString "!!!") none)
    [(ofString "abc", 7)] (ofString "abc") 7 [] (by decide) rfl (by decide)

end MapPlayers
